import Mathlib

/-!
Verification development for the btc-node-monitor storage engine and its
query-serving layer (internal/storage, internal/server, pkg/metrics).

Shallow embedding conventions:
* Instants are modelled as `Int` nanoseconds since the Unix epoch, matching
  the resolution of Go `time.Time`.  The UTC calendar day of an instant `t`
  is `t.fdiv nsPerDay`; `time.Format "2006-01-02"` on two instants agrees
  exactly when their day indices agree.
* One line of a segment file is modelled by `Line`: `Line.good s` stands for
  the output of `json.Marshal` on the sample `s` (Go `encoding/json`
  round-trips every field of `metrics.Sample`, with `time.Time` serialized
  in RFC3339 at nanosecond precision, so `json.Unmarshal` recovers `s`
  exactly), and `Line.bad raw` stands for any line that `json.Unmarshal`
  rejects.  The subsystem blocks of a sample are carried opaquely in
  `Sample.payload`: the storage layer never inspects them, it only reads
  `Sample.Timestamp`.
* Go slices distinguish `nil` from an allocated empty slice and
  `json.Marshal` renders them as `null` and `[]` respectively; `GSlice`
  keeps that distinction.
-/

namespace BtcMon

/-- Nanoseconds in one UTC calendar day (Go time has no leap seconds). -/
def nsPerDay : Int := 86400000000000

/-- The UTC calendar day index (days since 1970-01-01) of an instant,
matching `now.Format "2006-01-02"` equality in the source. -/
def dayOf (t : Int) : Int := t.fdiv nsPerDay

/-- A metrics.Sample: the timestamp is inspected by the storage layer, the
three optional subsystem blocks are carried opaquely as `payload`. -/
structure Sample where
  ts : Int
  payload : String
deriving DecidableEq, Repr

/-- One text line of a segment file.  `good s` is the `json.Marshal`
serialization of `s` (recovered exactly by `json.Unmarshal`); `bad raw` is
any line that fails to unmarshal. -/
inductive Line where
  | good (s : Sample)
  | bad (raw : String)
deriving DecidableEq, Repr

/-- Models `json.Unmarshal` of one line into a `metrics.Sample`. -/
def parseLine : Line → Option Sample
  | .good s => some s
  | .bad _ => none

/-- A file name in the metrics directory: `jsonl d` is "&lt;date&gt;.jsonl" and
`gz d` is "&lt;date&gt;.jsonl.gz" for the date with day index `d`; `other`
covers every name that is not of those two forms (including names with the
right suffix whose date part fails `time.Parse "2006-01-02"`). -/
inductive FName where
  | jsonl (d : Int)
  | gz (d : Int)
  | other (s : String)
deriving DecidableEq, Repr

/-- Sort key mirroring `sort.Strings` on the file names produced by the
storage layer: on names "YYYY-MM-DD.jsonl" and "YYYY-MM-DD.jsonl.gz"
(zero-padded dates), lexicographic string order coincides with ordering by
(date, plain-before-gz).  `other` names are never sorted by the code (they
are filtered out before the sort), so their key is arbitrary. -/
def FName.key : FName → Int × Int
  | .jsonl d => (d, 0)
  | .gz d => (d, 1)
  | .other _ => (0, 2)

/-- The order used to model `sort.Strings(files)`. -/
def nameLe (a b : FName) : Prop :=
  a.key.1 < b.key.1 ∨ (a.key.1 = b.key.1 ∧ a.key.2 ≤ b.key.2)

instance : DecidableRel nameLe := fun a b => by
  unfold nameLe; infer_instance

instance : IsTotal FName nameLe := ⟨by
  intro a b
  unfold nameLe
  rcases lt_trichotomy a.key.1 b.key.1 with h | h | h
  · exact Or.inl (Or.inl h)
  · rcases le_total a.key.2 b.key.2 with h2 | h2
    · exact Or.inl (Or.inr ⟨h, h2⟩)
    · exact Or.inr (Or.inr ⟨h.symm, h2⟩)
  · exact Or.inr (Or.inl h)⟩

instance : IsTrans FName nameLe := ⟨by
  intro a b c hab hbc
  unfold nameLe at *
  rcases hab with h1 | ⟨h1, h1'⟩ <;> rcases hbc with h2 | ⟨h2, h2'⟩
  · exact Or.inl (h1.trans h2)
  · exact Or.inl (h2 ▸ h1)
  · exact Or.inl (h1 ▸ h2)
  · exact Or.inr ⟨h1.trans h2, h1'.trans h2'⟩⟩

/-- One entry of the metrics directory: its name, its logical line content
(for a `.gz` name the lines recovered by transparent decompression), and
whether reading it succeeds.  `readOk = false` models every failure of
`Storage.readFile`: `os.Open` error, corrupt gzip header, or a
`bufio.Scanner` error (for example an over-long line); in all those cases
the function returns a non-nil error. -/
structure FileEnt where
  name : FName
  lines : List Line
  readOk : Bool
deriving DecidableEq, Repr

/-- Names of the directory entries. -/
def namesOf (fs : List FileEnt) : List FName := fs.map (·.name)

/-- Whether an entry with the given name exists. -/
def hasFile (fs : List FileEnt) (n : FName) : Bool := fs.any (fun f => f.name = n)

/-- Content of the entry with the given name (empty when absent). -/
def contentOf : List FileEnt → FName → List Line
  | [], _ => []
  | f :: fs, n => if f.name = n then f.lines else contentOf fs n

/-- Append one line to the entry with the given name (first match). -/
def appendTo : List FileEnt → FName → Line → List FileEnt
  | [], _, _ => []
  | f :: fs, n, l =>
    if f.name = n then { f with lines := f.lines ++ [l] } :: fs
    else f :: appendTo fs n l

/-- Models `os.OpenFile(path, O_APPEND|O_CREATE|O_WRONLY, 0644)` at the
directory level: an existing file is kept (later writes append), a missing
one is created empty. -/
def ensureFile (fs : List FileEnt) (n : FName) : List FileEnt :=
  if hasFile fs n then fs else fs ++ [⟨n, [], true⟩]

/-- The access mode of an open file handle.  The source opens every segment
file with `os.O_WRONLY` (config.go line 267); `readWrite` exists only to
express what the scan in `GetCurrent` would do on a readable handle. -/
inductive Mode where
  | writeOnly
  | readWrite
deriving DecidableEq, Repr

/-- An open file handle of the storage: the day it belongs to and its mode. -/
structure Handle where
  day : Int
  mode : Mode
deriving DecidableEq, Repr

/-- The storage state: the open handle (`nil` before the first successful
rotation), the `currentDay` string (as a day index, `none` for the zero
string), and the metrics directory. -/
structure Storage where
  currentFile : Option Handle
  currentDay : Option Int
  files : List FileEnt
deriving DecidableEq, Repr

/-- Models `Storage.rotateIfNeeded` at instant `now`; `openOk` injects the
success or failure of `os.OpenFile`.  On an open failure the state is
returned unchanged (the Go code keeps the closed old handle in
`s.currentFile`, a detail none of the claims depends on). -/
def rotateIfNeeded (st : Storage) (now : Int) (openOk : Bool) :
    Except String Storage :=
  let d := dayOf now
  if st.currentDay = some d ∧ st.currentFile.isSome then .ok st
  else if openOk then
    -- the close of the previous handle and the fire-and-forget
    -- `go compressFile(oldPath)` happen here in the source; compression is
    -- asynchronous and is modelled separately by `compressFile`
    .ok { currentFile := some ⟨d, .writeOnly⟩
          currentDay := some d
          files := ensureFile st.files (.jsonl d) }
  else .error "failed to open metrics file"

/-- Models `NewStorage`: the constructor runs `rotateIfNeeded` once and
opens (creating it) the file of the current day.  The background
`go s.cleanupOldFiles()` is modelled separately. -/
def newStorage (t0 : Int) : Storage :=
  { currentFile := some ⟨dayOf t0, .writeOnly⟩
    currentDay := some (dayOf t0)
    files := ensureFile [] (.jsonl (dayOf t0)) }

/-- The observable write/flush system calls issued by one `Storage.Write`. -/
inductive Ev where
  | writeCall
  | syncCall
deriving DecidableEq, Repr

/-- Models `Storage.Write` at instant `now`.  `openOk`, `writeOk`, `syncOk`
inject the success or failure of `os.OpenFile`, `File.Write` and
`File.Sync`.  `json.Marshal` on `metrics.Sample` (a struct of basic types)
cannot fail and is modelled as total.  Returns the call result, the state
after the call, and the trace of write/flush system calls issued. -/
def Write (st : Storage) (now : Int) (sample : Sample)
    (openOk writeOk syncOk : Bool) :
    Except String Unit × Storage × List Ev :=
  match rotateIfNeeded st now openOk with
  | .error e => (.error e, st, [])
  | .ok st1 =>
    if writeOk then
      let st2 := { st1 with
        files := appendTo st1.files (.jsonl (dayOf now)) (.good sample) }
      if syncOk then (.ok (), st2, [.writeCall, .syncCall])
      else (.error "failed to sync", st2, [.writeCall, .syncCall])
    else (.error "failed to write sample", st1, [.writeCall])

/-- The state after a fully successful `Write`. -/
def doWrite (st : Storage) (w : Int × Sample) : Storage :=
  (Write st w.1 w.2 true true true).2.1

/-- A sequence of successful writes, in order. -/
def writeAll (st : Storage) (ws : List (Int × Sample)) : Storage :=
  ws.foldl doWrite st

/-- The last successfully parsed record of a line list, mirroring the scan
loop of `GetCurrent` (`lastSample` is overwritten on every parse success). -/
def lastParsed (ls : List Line) : Option Sample :=
  ls.foldl (fun acc l => match parseLine l with
    | some s => some s
    | none => acc) none

/-- Models the `bufio.Scanner` pass of `GetCurrent` over the open handle
after `Seek(0,0)`: a `read(2)` on an `O_WRONLY` descriptor fails with
`EBADF`, so the first `Scan` returns false and `scanner.Err()` is non-nil;
on a readable handle the scan yields the file content. -/
def scanHandle (st : Storage) (h : Handle) : Except String (List Line) :=
  match h.mode with
  | .writeOnly => .error "read on write-only file descriptor"
  | .readWrite => .ok (contentOf st.files (.jsonl h.day))

/-- Models `Storage.GetCurrent`: error when no file is open or the scan
fails; otherwise the last successfully parsed record (`none` when no line
parsed, which Go returns as a nil sample with nil error). -/
def GetCurrent (st : Storage) : Except String (Option Sample) :=
  match st.currentFile with
  | none => .error "no current file open"
  | some h => (scanHandle st h).map lastParsed

/-! ## Query pipeline -/

/-- A Go slice, distinguishing nil from an allocated (possibly empty)
slice: `json.Marshal` renders a nil slice as `null` and an allocated empty
one as an empty array. -/
abbrev GSlice (α : Type) := Option (List α)

/-- Models Go `append(s, xs...)`: appending zero elements returns the slice
unchanged (a nil slice stays nil); appending to nil allocates. -/
def goAppend : GSlice α → List α → GSlice α
  | acc, [] => acc
  | none, xs => some xs
  | some l, xs => some (l ++ xs)

/-- The elements of a Go slice (nil and empty both read as no elements). -/
def GSlice.toList : GSlice α → List α
  | none => []
  | some l => l

/-- The file-enumeration test of `getFilesForTimeRange`: a name of date
form with day `d` is kept unless `fileEndOfDay.Before(startTime)` or
`fileDate.After(endTime)`, where `fileDate` is midnight UTC of `d` and
`fileEndOfDay` is 24h later; names of any other form are skipped (wrong
suffix or date parse failure). -/
def keepTest (n : FName) (s e : Int) : Bool :=
  match n with
  | .jsonl d => !((d + 1) * nsPerDay < s) && !(d * nsPerDay > e)
  | .gz d => !((d + 1) * nsPerDay < s) && !(d * nsPerDay > e)
  | .other _ => false

/-- Models `Storage.getFilesForTimeRange`: keep the date-named entries
whose day passes the range test, then sort by file name
(`sort.Strings`, modelled by `nameLe` on the structured names). -/
def getFilesForTimeRange (dir : List FileEnt) (s e : Int) : List FileEnt :=
  List.insertionSort (fun a b => nameLe a.name b.name)
    (dir.filter (fun f => keepTest f.name s e))

/-- The records `Storage.readFile` keeps from a line list: unparseable
lines are skipped, and a record is kept only when
`start ≤ timestamp ≤ end` (the code skips on `Before start` or
`After end`). -/
def inRangeRecords (ls : List Line) (s e : Int) : List Sample :=
  ls.filterMap (fun l =>
    match parseLine l with
    | none => none
    | some smp => if smp.ts < s || smp.ts > e then none else some smp)

/-- Models `Storage.readFile` on one directory entry (decompressing
transparently for `.gz` names): an unreadable entry yields an error, a
readable one yields its in-range parseable records in file order. -/
def readFile (f : FileEnt) (s e : Int) : Except Unit (List Sample) :=
  if f.readOk then .ok (inRangeRecords f.lines s e) else .error ()

/-- The accumulation loop of `Query`: `samples = append(samples, fileSamples...)`
over the enumerated files, skipping (with a logged warning) every file whose
read fails. -/
def gatherG (files : List FileEnt) (s e : Int) : GSlice Sample :=
  files.foldl (fun acc f =>
    match readFile f s e with
    | .ok xs => goAppend acc xs
    | .error _ => acc) none

/-- The comparison key order of the final `sort.Slice(samples, less)` with
`less i j = samples[i].Timestamp.Before(samples[j].Timestamp)`. -/
def tsLe (a b : Sample) : Prop := a.ts ≤ b.ts

instance : DecidableRel tsLe := fun a b =>
  inferInstanceAs (Decidable (a.ts ≤ b.ts))

instance : IsTotal Sample tsLe := ⟨fun a b => Int.le_total a.ts b.ts⟩

instance : IsTrans Sample tsLe := ⟨fun _ _ _ h1 h2 => le_trans h1 h2⟩

/-- Models the `sort.Slice` call of `Query` by its contract: the result is
a permutation of the input sorted nondecreasingly by timestamp.  The Go
actual in-place algorithm (pdqsort) is not stable, so the order this model
gives to equal timestamps is not promised by the code; no theorem below
relies on it.  A nil slice is left nil (`sort.Slice` on a nil slice is a
no-op). -/
def sortSliceG : GSlice Sample → GSlice Sample :=
  Option.map (List.insertionSort tsLe)

/-- Models `Storage.Query` over the metrics directory.  The only error
return of the Go function is a failure of `os.ReadDir` on the data
directory itself, which the model (handed the directory listing) does not
produce; every per-file failure is skipped inside the loop. -/
def Query (dir : List FileEnt) (s e : Int) : GSlice Sample :=
  sortSliceG (gatherG (getFilesForTimeRange dir s e) s e)

/-! ## Retention sweep -/

/-- The deletion test of `cleanupOldFiles`: only names with the
".jsonl.gz" suffix and a parseable date are candidates, deleted when their
midnight is `Before` the cutoff instant. -/
def isOldGz (n : FName) (cutoff : Int) : Bool :=
  match n with
  | .gz d => d * nsPerDay < cutoff
  | _ => false

/-- Models `Storage.cleanupOldFiles` at instant `now` with retention `D`
days: the cutoff is `now.AddDate(0,0,-D)`, that is `now - D` calendar days
(in UTC exactly `D * 24h`).  Returns the remaining directory and the list
of deleted names; `os.Remove` failures (logged and skipped in Go) are not
injected, since the claims are about which files the sweep targets. -/
def cleanupOldFiles (dir : List FileEnt) (now : Int) (retention : Int) :
    List FileEnt × List FName :=
  let cutoff := now - retention * nsPerDay
  (dir.filter (fun f => !isOldGz f.name cutoff),
   (dir.filter (fun f => isOldGz f.name cutoff)).map (·.name))

/-! ## Compression -/

/-- The observable filesystem operations of `compressFile`. -/
inductive FsOp where
  | createOp (n : FName)
  | renameOp (src dst : FName)
  | removeOp (n : FName)
deriving DecidableEq, Repr

/-- Models `os.Create` result placement: an existing entry of that name is
truncated and rewritten, a missing one is added. -/
def putFile (fs : List FileEnt) (ent : FileEnt) : List FileEnt :=
  if hasFile fs ent.name
  then fs.map (fun f => if f.name = ent.name then ent else f)
  else fs ++ [ent]

/-- Models `compressFile` on the plain segment of day `d`; `copyOk`
injects the success or failure of the compress/copy step.  The source
creates the destination directly at the canonical name `path + ".gz"`
(`os.Create`, config.go line 411) and never uses a temporary path or a
rename.  On a successful copy the original is removed; on a copy failure
the function returns early, leaving the truncated destination in place at
the canonical name (modelled as an entry whose `readOk` is false: a
truncated gzip stream fails the reader).  Failures of `os.Open` or
`os.Create` themselves, which leave the directory unchanged, are not
separately injected.  Returns the resulting directory and the trace of
name-changing filesystem operations. -/
def compressFile (dir : List FileEnt) (d : Int) (copyOk : Bool) :
    List FileEnt × List FsOp :=
  if hasFile dir (.jsonl d) then
    let src := contentOf dir (.jsonl d)
    if copyOk then
      (putFile (dir.filter (fun f => f.name ≠ FName.jsonl d)) ⟨.gz d, src, true⟩,
       [.createOp (.gz d), .removeOp (.jsonl d)])
    else
      (putFile dir ⟨.gz d, [], false⟩, [.createOp (.gz d)])
  else
    (dir, [])  -- os.Stat reports the file does not exist: return

/-! ## Request server -/

/-- ASCII whitespace, the cases of `unicode.IsSpace` relevant to the
line-oriented protocol (a request line cannot contain a raw newline). -/
def isSpaceChar (c : Char) : Bool :=
  c = ' ' || c = '\t' || c = '\n' || c = '\r' || c = '\x0b' || c = '\x0c'

/-- Accumulator pass of `strings.Fields`. -/
def fieldsAux : List Char → List Char → List (List Char)
  | [], acc => if acc.isEmpty then [] else [acc.reverse]
  | c :: cs, acc =>
    if isSpaceChar c then
      if acc.isEmpty then fieldsAux cs []
      else acc.reverse :: fieldsAux cs []
    else fieldsAux cs (c :: acc)

/-- Models `strings.Fields`: split on runs of whitespace, no empty fields.
The `strings.TrimSpace` the handler applies first does not change the
result of `Fields`. -/
def fields (s : String) : List String :=
  (fieldsAux s.toList []).map String.mk

/-- Models `strings.ToUpper` (the protocol verbs are ASCII). -/
def toUpperStr (s : String) : String := String.mk (s.toList.map Char.toUpper)

/-- Models `strings.ToLower` (the protocol subcommands are ASCII). -/
def toLowerStr (s : String) : String := String.mk (s.toList.map Char.toLower)

/-- Parse exactly `n` decimal digits into a number. -/
def parseDigits : Nat → List Char → Option (Nat × List Char)
  | 0, cs => some (0, cs)
  | _ + 1, [] => none
  | n + 1, c :: cs =>
    if c.isDigit then
      match parseDigits n cs with
      | some (v, rest) => some ((c.toNat - 48) * 10 ^ n + v, rest)
      | none => none
    else none

/-- Expect one literal character. -/
def expectChar (c : Char) : List Char → Option (List Char)
  | [] => none
  | c1 :: cs => if c1 = c then some cs else none

/-- Fractional seconds: a dot followed by one or more digits; Go keeps the
first nine digits (nanoseconds) and ignores further precision. -/
def parseFracDigits : List Char → Nat → Nat → Nat × List Char
  | [], acc, _ => (acc, [])
  | c :: cs, acc, scale =>
    if c.isDigit then
      parseFracDigits cs (acc + (c.toNat - 48) * scale / 10) (scale / 10)
    else (acc, c :: cs)

/-- Optional fractional-second part, in nanoseconds. -/
def parseFracOpt : List Char → Option (Nat × List Char)
  | '.' :: c :: cs =>
    if c.isDigit then some (parseFracDigits (c :: cs) 0 1000000000)
    else none
  | '.' :: [] => none
  | cs => some (0, cs)

/-- Time-zone suffix of RFC3339: `Z` or a signed `hh:mm` offset; returns
the offset in nanoseconds to subtract from the local reading. -/
def parseOffset : List Char → Option (Int × List Char)
  | 'Z' :: cs => some (0, cs)
  | '+' :: cs =>
    match parseDigits 2 cs with
    | some (h, cs1) =>
      match expectChar ':' cs1 with
      | some cs2 =>
        match parseDigits 2 cs2 with
        | some (m, cs3) =>
          if h ≤ 23 && m ≤ 59 then
            some (((h : Int) * 3600 + (m : Int) * 60) * 1000000000, cs3)
          else none
        | none => none
      | none => none
    | none => none
  | '-' :: cs =>
    match parseDigits 2 cs with
    | some (h, cs1) =>
      match expectChar ':' cs1 with
      | some cs2 =>
        match parseDigits 2 cs2 with
        | some (m, cs3) =>
          if h ≤ 23 && m ≤ 59 then
            some (-(((h : Int) * 3600 + (m : Int) * 60) * 1000000000), cs3)
          else none
        | none => none
      | none => none
    | none => none
  | _ => none

/-- Whether a year is a Gregorian leap year. -/
def isLeapYear (y : Nat) : Bool :=
  y % 4 == 0 && (y % 100 != 0 || y % 400 == 0)

/-- Days in a month of a given year. -/
def daysInMonth (y m : Nat) : Nat :=
  if m = 2 then (if isLeapYear y then 29 else 28)
  else if m = 4 || m = 6 || m = 9 || m = 11 then 30
  else 31

/-- Days from 1970-01-01 to the civil date `(y, m, d)` (the standard
era-based civil-calendar conversion). -/
def daysFromCivil (y m d : Int) : Int :=
  let y1 := if m ≤ 2 then y - 1 else y
  let era := (if 0 ≤ y1 then y1 else y1 - 399).fdiv 400
  let yoe := y1 - era * 400
  let mp := (m + 9) % 12
  let doy := (153 * mp + 2).fdiv 5 + d - 1
  let doe := yoe * 365 + yoe.fdiv 4 - yoe.fdiv 100 + doy
  era * 146097 + doe - 719468

/-- Models `time.Parse(time.RFC3339, str)`, returning the instant in
nanoseconds since the epoch: strict `YYYY-MM-DDThh:mm:ss[.frac](Z|±hh:mm)`
with range-checked fields, `none` on any deviation. -/
def parseRFC3339 (str : String) : Option Int :=
  match parseDigits 4 str.toList with
  | none => none
  | some (y, cs) =>
    match expectChar '-' cs with
    | none => none
    | some cs =>
      match parseDigits 2 cs with
      | none => none
      | some (mo, cs) =>
        match expectChar '-' cs with
        | none => none
        | some cs =>
          match parseDigits 2 cs with
          | none => none
          | some (d, cs) =>
            match expectChar 'T' cs with
            | none => none
            | some cs =>
              match parseDigits 2 cs with
              | none => none
              | some (h, cs) =>
                match expectChar ':' cs with
                | none => none
                | some cs =>
                  match parseDigits 2 cs with
                  | none => none
                  | some (mi, cs) =>
                    match expectChar ':' cs with
                    | none => none
                    | some cs =>
                      match parseDigits 2 cs with
                      | none => none
                      | some (sec, cs) =>
                        match parseFracOpt cs with
                        | none => none
                        | some (ns, cs) =>
                          match parseOffset cs with
                          | none => none
                          | some (offNs, cs) =>
                            if cs = [] && 1 ≤ mo && mo ≤ 12 && 1 ≤ d &&
                               d ≤ daysInMonth y mo && h ≤ 23 && mi ≤ 59 &&
                               sec ≤ 59 then
                              some ((daysFromCivil y mo d * 86400 +
                                     (h : Int) * 3600 + (mi : Int) * 60 +
                                     (sec : Int)) * 1000000000 +
                                    (ns : Int) - offNs)
                            else none

/-- Minimal JSON string escaping (quote and backslash), standing for the
escaping `encoding/json` applies inside the error object. -/
def jsonEscape (s : String) : String :=
  String.mk (s.toList.flatMap (fun c =>
    if c = '"' then ['\\', '"']
    else if c = '\\' then ['\\', '\\']
    else [c]))

/-- Models `Server.writeError`: the single line
`json.Marshal(map[string]string{"error": message})` produces (braces
written as their character escapes). -/
def errLine (m : String) : String :=
  "\x7b\"error\":\"" ++ jsonEscape m ++ "\"\x7d"

/-- Stands for the `json.Marshal` bytes of one sample, as written by
`handleGetCurrent`; its exact shape is opaque to the claims. -/
def encodeSample (s : Sample) : String :=
  "sample " ++ toString s.ts ++ " " ++ s.payload

/-- Models `json.Marshal` on the `[]*metrics.Sample` slice returned by
`Query`: a nil slice marshals to `null`, an allocated slice to a JSON
array. -/
def marshalSamples : GSlice Sample → String
  | none => "null"
  | some l => "[" ++ String.intercalate "," (l.map encodeSample) ++ "]"

/-- The server state the handlers read: the storage, plus the marshalled
`AgentStatus` line (whose content no claim inspects). -/
structure SrvState where
  store : Storage
  statusJson : String

/-- Models `Server.handleGetMetrics`. -/
def handleGetMetrics (srv : SrvState) (args : List String) : List String :=
  match args with
  | a :: b :: _ =>
    (match parseRFC3339 a with
     | none => [errLine "invalid start time"]
     | some s =>
       match parseRFC3339 b with
       | none => [errLine "invalid end time"]
       | some e => [marshalSamples (Query srv.store.files s e)])
  | _ => [errLine "GET metrics requires start and end time (ISO8601)"]

/-- Models `Server.handleGet` dispatching on the lower-cased subcommand. -/
def handleGet (srv : SrvState) (args : List String) : List String :=
  match args with
  | [] => [errLine "GET requires subcommand"]
  | sub :: rest =>
    if toLowerStr sub = "status" then [srv.statusJson]
    else if toLowerStr sub = "current" then
      match GetCurrent srv.store with
      | .error e => [errLine ("failed to get current sample: " ++ e)]
      | .ok none => [errLine "no samples available"]
      | .ok (some smp) => [encodeSample smp]
    else if toLowerStr sub = "metrics" then handleGetMetrics srv rest
    else if toLowerStr sub = "config" then ["\x7b\x7d"]
    else [errLine ("unknown GET subcommand: " ++ toLowerStr sub)]

/-- Models the dispatch of `Server.handleConnection` on one request line:
the lines written back on the connection. -/
def handleLine (srv : SrvState) (line : String) : List String :=
  match fields line with
  | [] => [errLine "empty command"]
  | cmd :: rest =>
    if toUpperStr cmd = "GET" then handleGet srv rest
    else [errLine ("unknown command: " ++ toUpperStr cmd)]

/-- Models one full `handleConnection` exchange: the response lines and
whether the connection is closed afterwards (the deferred `conn.Close()`
always runs). -/
def handleConnection (srv : SrvState) (line : String) : List String × Bool :=
  (handleLine srv line, true)

/-! ## Specification-side definitions

These follow the wording of the specification claims and are compared with
the source-derived definitions above. -/

/-- The day of a date-named segment file, `none` for other names. -/
def nameDay : FName → Option Int
  | .jsonl d => some d
  | .gz d => some d
  | .other _ => none

/-- Day overlap as the claim words it: the day span
`[d*24h, (d+1)*24h)` of a date-named file intersects the closed query
range `[s, e]`. -/
def overlapTest (n : FName) (s e : Int) : Bool :=
  match nameDay n with
  | some d => decide (d * nsPerDay ≤ e) && decide (s < (d + 1) * nsPerDay)
  | none => false

/-- The records the range-query claim describes: the in-range parseable
records of every readable segment file whose day overlaps the range, in
directory order. -/
def segKept (dir : List FileEnt) (s e : Int) : List Sample :=
  (dir.filter (fun f => f.readOk && overlapTest f.name s e)).flatMap
    (fun f => inRangeRecords f.lines s e)

/-- The records `Query` gathers before sorting, phrased over the unsorted
directory: the in-range parseable records of every readable file passing
the enumeration test of the source. -/
def gatherSpec (dir : List FileEnt) (s e : Int) : List Sample :=
  (dir.filter (fun f => f.readOk && keepTest f.name s e)).flatMap
    (fun f => inRangeRecords f.lines s e)

/-- A date-named segment file contains only records of its own day (the
invariant rotation establishes for files the storage itself wrote). -/
def inDayB (f : FileEnt) : Bool :=
  f.lines.all (fun l =>
    match parseLine l, nameDay f.name with
    | some smp, some d =>
      decide (d * nsPerDay ≤ smp.ts) && decide (smp.ts < (d + 1) * nsPerDay)
    | _, _ => true)

/-- First-occurrence deduplication (the order segment files are created in
across a write sequence). -/
def firstDedup : List Int → List Int
  | [] => []
  | a :: l => a :: (firstDedup l).filter (fun b => b ≠ a)

/-- The UTC days of a write sequence, in order. -/
def daysOf (ws : List (Int × Sample)) : List Int :=
  ws.map (fun w => dayOf w.1)

/-- Well-formedness a reachable storage state satisfies: the day of the open
handle matches `currentDay` and its segment file exists in the directory (in
Go the file exists because the handle is open on it). -/
def storageWF (st : Storage) : Bool :=
  match st.currentFile with
  | none => true
  | some h => st.currentDay == some h.day && hasFile st.files (.jsonl h.day)

/-- A request line the error-handling claim covers, following its words:
the verb is unknown, a required argument is missing (subcommand, metrics
range bounds, or a known verb with an unknown subcommand), or a timestamp
does not parse. -/
def isBadRequest (line : String) : Bool :=
  match fields line with
  | [] => false
  | cmd :: rest =>
    if toUpperStr cmd = "GET" then
      match rest with
      | [] => true
      | sub :: rest2 =>
        if toLowerStr sub = "status" || toLowerStr sub = "current" ||
           toLowerStr sub = "config" then false
        else if toLowerStr sub = "metrics" then
          match rest2 with
          | a :: b :: _ => (parseRFC3339 a).isNone || (parseRFC3339 b).isNone
          | _ => true
        else true
    else true

/-- Whether a trace contains no rename operation. -/
def noRename (tr : List FsOp) : Bool :=
  tr.all (fun op => match op with
    | .renameOp _ _ => false
    | _ => true)

/-- The records one enumerated file contributes to the gather loop. -/
def contribF (f : FileEnt) (s e : Int) : List Sample :=
  if f.readOk then inRangeRecords f.lines s e else []

/-- A concrete directory exercising the range query: a readable day-0
plain segment with a malformed middle line, a readable day-1 compressed
segment, an unreadable day-2 segment, and a non-segment file. -/
def exDir : List FileEnt :=
  [⟨.gz 1, [.good ⟨nsPerDay + 7, "c"⟩], true⟩,
   ⟨.jsonl 0, [.good ⟨10, "a"⟩, .bad "x", .good ⟨5, "b"⟩], true⟩,
   ⟨.jsonl 2, [.good ⟨2 * nsPerDay + 1, "z"⟩], false⟩,
   ⟨.other "notes.txt", [.good ⟨3, "n"⟩], true⟩]

/-- A directory holding one sealed day-0 plain segment, input for the
compression claims. -/
def c2Dir : List FileEnt := [⟨.jsonl 0, [.good ⟨0, "a"⟩], true⟩]

/-- A directory with compressed segments of days 0 and 5, a plain segment
of day 0, and a non-segment file, input for the retention claims. -/
def c7Dir : List FileEnt :=
  [⟨.gz 0, [], true⟩, ⟨.jsonl 0, [], true⟩, ⟨.gz 5, [], true⟩,
   ⟨.other "x", [], true⟩]

/-- A concrete server state over a freshly constructed storage. -/
def srv0 : SrvState := ⟨newStorage 0, "status-line"⟩

/-! ## Lemmas about the query pipeline -/

theorem goAppend_toList (a : GSlice α) (xs : List α) :
    (goAppend a xs).toList = a.toList ++ xs := by
  cases a <;> cases xs <;> simp [goAppend, GSlice.toList]

theorem goAppend_ne_some_nil (a : GSlice α) (xs : List α) (h : a ≠ some []) :
    goAppend a xs ≠ some [] := by
  cases a <;> cases xs <;> simp_all [goAppend]

theorem gather_step (f : FileEnt) (s e : Int) (acc : GSlice Sample) :
    (match readFile f s e with
      | .ok xs => goAppend acc xs
      | .error _ => acc) = goAppend acc (contribF f s e) := by
  cases hr : f.readOk <;> simp [readFile, hr, contribF, goAppend]

theorem gather_fold_eq (fs : List FileEnt) (s e : Int) (acc : GSlice Sample) :
    fs.foldl (fun acc f => match readFile f s e with
      | .ok xs => goAppend acc xs
      | .error _ => acc) acc
      = fs.foldl (fun acc f => goAppend acc (contribF f s e)) acc := by
  induction fs generalizing acc with
  | nil => rfl
  | cons f fs ih => rw [List.foldl_cons, List.foldl_cons, gather_step, ih]

theorem gatherG_toList_aux (fs : List FileEnt) (s e : Int) (acc : GSlice Sample) :
    (fs.foldl (fun acc f => goAppend acc (contribF f s e)) acc).toList
      = acc.toList ++ fs.flatMap (fun f => contribF f s e) := by
  induction fs generalizing acc with
  | nil => simp
  | cons f fs ih =>
    simp [List.foldl_cons, ih, goAppend_toList, List.flatMap_cons,
      List.append_assoc]

theorem gatherG_toList (fs : List FileEnt) (s e : Int) :
    (gatherG fs s e).toList = fs.flatMap (fun f => contribF f s e) := by
  rw [gatherG, gather_fold_eq]
  simpa [GSlice.toList] using gatherG_toList_aux fs s e none

theorem gatherG_ne_some_nil_aux (fs : List FileEnt) (s e : Int)
    (acc : GSlice Sample) (h : acc ≠ some []) :
    fs.foldl (fun acc f => match readFile f s e with
      | .ok xs => goAppend acc xs
      | .error _ => acc) acc ≠ some [] := by
  induction fs generalizing acc with
  | nil => simpa using h
  | cons f fs ih =>
    rw [List.foldl_cons, gather_step]
    exact ih _ (goAppend_ne_some_nil _ _ h)

theorem gatherG_ne_some_nil (fs : List FileEnt) (s e : Int) :
    gatherG fs s e ≠ some [] :=
  gatherG_ne_some_nil_aux fs s e none (by simp)

theorem gatherSpec_cons (f : FileEnt) (fs : List FileEnt) (s e : Int) :
    gatherSpec (f :: fs) s e =
      (if f.readOk && keepTest f.name s e then inRangeRecords f.lines s e
       else []) ++ gatherSpec fs s e := by
  simp only [gatherSpec, List.filter_cons]
  split <;> simp_all [List.flatMap_cons]

theorem segKept_cons (f : FileEnt) (fs : List FileEnt) (s e : Int) :
    segKept (f :: fs) s e =
      (if f.readOk && overlapTest f.name s e then inRangeRecords f.lines s e
       else []) ++ segKept fs s e := by
  simp only [segKept, List.filter_cons]
  split <;> simp_all [List.flatMap_cons]

theorem contrib_filter_flatMap (dir : List FileEnt) (s e : Int) :
    (dir.filter (fun f => keepTest f.name s e)).flatMap
      (fun f => contribF f s e) = gatherSpec dir s e := by
  induction dir with
  | nil => rfl
  | cons f fs ih =>
    rw [gatherSpec_cons, List.filter_cons]
    by_cases hk : keepTest f.name s e = true
    · rw [if_pos hk, List.flatMap_cons, ih]
      congr 1
      cases hro : f.readOk <;> simp [contribF, hk, hro]
    · rw [if_neg hk, ih]
      have hk0 : keepTest f.name s e = false := by
        simpa using hk
      simp [hk0]

theorem getFiles_perm (dir : List FileEnt) (s e : Int) :
    (getFilesForTimeRange dir s e).Perm
      (dir.filter (fun f => keepTest f.name s e)) :=
  List.perm_insertionSort _ _

theorem query_perm_gatherSpec (dir : List FileEnt) (s e : Int) :
    (Query dir s e).toList.Perm (gatherSpec dir s e) := by
  unfold Query
  have hsort : (sortSliceG (gatherG (getFilesForTimeRange dir s e) s e)).toList.Perm
      (gatherG (getFilesForTimeRange dir s e) s e).toList := by
    cases hg : gatherG (getFilesForTimeRange dir s e) s e with
    | none => simp [sortSliceG, GSlice.toList]
    | some l => simpa [sortSliceG, GSlice.toList] using List.perm_insertionSort tsLe l
  refine hsort.trans ?_
  rw [gatherG_toList, ← contrib_filter_flatMap]
  exact (getFiles_perm dir s e).flatMap_right _

theorem query_sorted (dir : List FileEnt) (s e : Int) :
    List.Sorted tsLe (Query dir s e).toList := by
  unfold Query
  cases hg : gatherG (getFilesForTimeRange dir s e) s e with
  | none => simp [sortSliceG, GSlice.toList]
  | some l => simpa [sortSliceG, GSlice.toList] using List.sorted_insertionSort tsLe l

theorem query_eq_none_of_gatherSpec_nil (dir : List FileEnt) (s e : Int)
    (h : gatherSpec dir s e = []) : Query dir s e = none := by
  have hperm := query_perm_gatherSpec dir s e
  rw [h] at hperm
  have htl : (Query dir s e).toList = [] := hperm.eq_nil
  unfold Query at htl ⊢
  cases hg : gatherG (getFilesForTimeRange dir s e) s e with
  | none => simp [sortSliceG]
  | some l =>
    exfalso
    rw [hg] at htl
    simp only [sortSliceG, Option.map_some', GSlice.toList] at htl
    have hl : l = [] := by
      have hp := List.perm_insertionSort tsLe l
      rw [htl] at hp
      exact hp.symm.eq_nil
    exact gatherG_ne_some_nil _ _ _ (by rw [hg, hl])

theorem keep_of_overlap {n : FName} {s e : Int} (h : overlapTest n s e = true) :
    keepTest n s e = true := by
  cases n <;> simp_all [overlapTest, keepTest, nameDay] <;> omega

theorem keepTest_nameDay_exists {n : FName} {s e : Int}
    (h : keepTest n s e = true) : ∃ d, nameDay n = some d := by
  cases n <;> simp_all [keepTest, nameDay]

theorem keepTest_bounds {d : Int} {n : FName} (hn : nameDay n = some d)
    {s e : Int} (h : keepTest n s e = true) :
    s ≤ (d + 1) * nsPerDay ∧ d * nsPerDay ≤ e := by
  cases n <;> simp_all [keepTest, nameDay]

theorem overlapTest_false {d : Int} {n : FName} (hn : nameDay n = some d)
    {s e : Int} (h : overlapTest n s e = false) :
    e < d * nsPerDay ∨ (d + 1) * nsPerDay ≤ s := by
  cases n <;> simp_all [overlapTest, nameDay] <;> omega

theorem inDay_bounds {f : FileEnt} {d : Int} (hn : nameDay f.name = some d)
    (hinv : inDayB f = true) {l : Line} (hl : l ∈ f.lines) {smp : Sample}
    (hp : parseLine l = some smp) :
    d * nsPerDay ≤ smp.ts ∧ smp.ts < (d + 1) * nsPerDay := by
  have h := (List.all_eq_true.mp hinv) l hl
  rw [hp, hn] at h
  simpa using h

theorem inRangeRecords_eq_nil_of_late {f : FileEnt} {d : Int}
    (hn : nameDay f.name = some d) (hinv : inDayB f = true) {s e : Int}
    (hs : (d + 1) * nsPerDay ≤ s) :
    inRangeRecords f.lines s e = [] := by
  rw [inRangeRecords, List.filterMap_eq_nil_iff]
  intro l hl
  cases hp : parseLine l with
  | none => simp
  | some smp =>
    have hb := inDay_bounds hn hinv hl hp
    have hlt : smp.ts < s := lt_of_lt_of_le hb.2 hs
    simp [hlt]

theorem gatherSpec_eq_segKept (dir : List FileEnt) (s e : Int)
    (hinv : ∀ f ∈ dir, inDayB f = true) :
    gatherSpec dir s e = segKept dir s e := by
  induction dir with
  | nil => rfl
  | cons f fs ih =>
    have hf : inDayB f = true := hinv f (List.mem_cons_self f fs)
    have hfs : ∀ g ∈ fs, inDayB g = true :=
      fun g hg => hinv g (List.mem_cons_of_mem f hg)
    rw [gatherSpec_cons, segKept_cons, ih hfs]
    cases hro : f.readOk with
    | false => simp
    | true =>
      cases ho : overlapTest f.name s e with
      | true => rw [keep_of_overlap ho]
      | false =>
        cases hk : keepTest f.name s e with
        | false => simp
        | true =>
          obtain ⟨d, hn⟩ := keepTest_nameDay_exists hk
          have hkb := keepTest_bounds hn hk
          have hob := overlapTest_false hn ho
          have hs : (d + 1) * nsPerDay ≤ s := by
            rcases hob with h1 | h1
            · exact absurd hkb.2 (not_le.mpr h1)
            · exact h1
          simp [inRangeRecords_eq_nil_of_late hn hf hs]



/-! ## Lemmas about the directory map and the write sequence -/

theorem hasFile_iff (fs : List FileEnt) (n : FName) :
    hasFile fs n = true ↔ n ∈ namesOf fs := by
  induction fs with
  | nil => simp [hasFile, namesOf]
  | cons f fs ih =>
    simp only [hasFile, List.any_cons, Bool.or_eq_true, decide_eq_true_eq,
      namesOf, List.map_cons, List.mem_cons] at ih ⊢
    constructor
    · rintro (h | h)
      · exact Or.inl h.symm
      · exact Or.inr (ih.mp h)
    · rintro (h | h)
      · exact Or.inl h.symm
      · exact Or.inr (ih.mpr h)

theorem contentOf_append_new (fs : List FileEnt) (n m : FName) :
    contentOf (fs ++ [⟨n, [], true⟩]) m = contentOf fs m := by
  induction fs with
  | nil =>
    simp only [List.nil_append, contentOf]
    split <;> rfl
  | cons f fs ih =>
    simp only [List.cons_append, contentOf]
    split
    · rfl
    · exact ih

theorem contentOf_ensureFile (fs : List FileEnt) (n m : FName) :
    contentOf (ensureFile fs n) m = contentOf fs m := by
  unfold ensureFile
  split
  · rfl
  · exact contentOf_append_new fs n m

theorem namesOf_ensureFile (fs : List FileEnt) (n : FName) :
    namesOf (ensureFile fs n) =
      if hasFile fs n then namesOf fs else namesOf fs ++ [n] := by
  unfold ensureFile
  split <;> simp_all [namesOf]

theorem hasFile_ensureFile (fs : List FileEnt) (n : FName) :
    hasFile (ensureFile fs n) n = true := by
  unfold ensureFile
  by_cases h : hasFile fs n
  · rw [if_pos h]
    exact h
  · rw [if_neg h]
    simp [hasFile, List.any_append]

theorem namesOf_appendTo (fs : List FileEnt) (n : FName) (l : Line) :
    namesOf (appendTo fs n l) = namesOf fs := by
  induction fs with
  | nil => rfl
  | cons f fs ih =>
    rw [appendTo]
    by_cases hf : f.name = n
    · rw [if_pos hf]
      rfl
    · rw [if_neg hf]
      simp only [namesOf, List.map_cons] at ih ⊢
      rw [ih]

theorem contentOf_appendTo (fs : List FileEnt) (n : FName) (l : Line)
    (m : FName) (h : hasFile fs n = true) :
    contentOf (appendTo fs n l) m =
      if m = n then contentOf fs n ++ [l] else contentOf fs m := by
  induction fs with
  | nil => simp [hasFile] at h
  | cons f fs ih =>
    rw [appendTo]
    by_cases hf : f.name = n
    · rw [if_pos hf]
      by_cases hfm : f.name = m
      · have hmn : m = n := hfm.symm.trans hf
        subst hmn
        simp [contentOf, hf]
      · have hmn : m ≠ n := fun hc => hfm (by rw [hc]; exact hf)
        simp [contentOf, hfm, hmn]
    · rw [if_neg hf]
      have h' : hasFile fs n = true := by
        simpa [hasFile, List.any_cons, hf] using h
      by_cases hfm : f.name = m
      · have hmn : m ≠ n := fun hc => hf (hfm.trans hc)
        simp [contentOf, hfm, hmn]
      · simp [contentOf, hf, hfm, ih h']

theorem mem_firstDedup (a : Int) (l : List Int) :
    a ∈ firstDedup l ↔ a ∈ l := by
  induction l with
  | nil => simp [firstDedup]
  | cons b l ih =>
    by_cases hab : a = b <;>
      simp [firstDedup, List.mem_filter, hab, ih]

theorem firstDedup_concat (l : List Int) (a : Int) :
    firstDedup (l ++ [a]) =
      if a ∈ l then firstDedup l else firstDedup l ++ [a] := by
  induction l with
  | nil => simp [firstDedup]
  | cons b l ih =>
    by_cases hal : a ∈ l
    · simp [firstDedup, ih, hal]
    · by_cases hab : a = b
      · subst hab
        simp [firstDedup, ih, hal, List.filter_append]
      · simp [firstDedup, ih, hal, hab, Ne.symm hab, List.filter_append]

/-- The day the storage is current on after a write sequence: the last
day of the last write, or the construction day when no write happened. -/
def lastDayOf (t0 : Int) (ws : List (Int × Sample)) : Int :=
  (daysOf ws).getLastD (dayOf t0)

theorem daysOf_concat (ws : List (Int × Sample)) (w : Int × Sample) :
    daysOf (ws ++ [w]) = daysOf ws ++ [dayOf w.1] := by
  simp [daysOf]

theorem lastDayOf_concat (t0 : Int) (ws : List (Int × Sample))
    (w : Int × Sample) : lastDayOf t0 (ws ++ [w]) = dayOf w.1 := by
  simp [lastDayOf, daysOf_concat]

theorem lastDayOf_mem (t0 : Int) (ws : List (Int × Sample)) :
    lastDayOf t0 ws ∈ dayOf t0 :: daysOf ws :=
  List.getLastD_mem_cons _ _

theorem doWrite_eq (st : Storage) (w : Int × Sample) (L : Int)
    (hD : st.currentDay = some L)
    (hF : st.currentFile = some ⟨L, .writeOnly⟩)
    (hHas : hasFile st.files (.jsonl L) = true) :
    doWrite st w =
      { currentFile := some ⟨dayOf w.1, .writeOnly⟩
        currentDay := some (dayOf w.1)
        files := appendTo (ensureFile st.files (.jsonl (dayOf w.1)))
          (.jsonl (dayOf w.1)) (.good w.2) } := by
  unfold doWrite Write rotateIfNeeded
  by_cases hL : L = dayOf w.1
  · have hens : ensureFile st.files (.jsonl (dayOf w.1)) = st.files := by
      unfold ensureFile
      rw [if_pos (hL ▸ hHas)]
    rw [hens]
    simp [hD, hF, hL]
  · have hcond : ¬(st.currentDay = some (dayOf w.1) ∧ st.currentFile.isSome) := by
      rintro ⟨hc, -⟩
      rw [hD] at hc
      exact hL (Option.some_injective _ hc)
    simp [hcond]

theorem writeAll_spec (t0 : Int) (ws : List (Int × Sample)) :
    (writeAll (newStorage t0) ws).currentFile
        = some ⟨lastDayOf t0 ws, .writeOnly⟩ ∧
    (writeAll (newStorage t0) ws).currentDay = some (lastDayOf t0 ws) ∧
    namesOf (writeAll (newStorage t0) ws).files
        = (firstDedup (dayOf t0 :: daysOf ws)).map FName.jsonl ∧
    ∀ d : Int, contentOf (writeAll (newStorage t0) ws).files (.jsonl d)
        = (ws.filter (fun w => dayOf w.1 = d)).map (fun w => Line.good w.2) := by
  induction ws using List.reverseRecOn with
  | nil =>
    refine ⟨rfl, rfl, ?_, ?_⟩
    · simp [writeAll, newStorage, namesOf, ensureFile, hasFile, firstDedup,
        daysOf]
    · intro d
      simp only [writeAll, List.foldl_nil, newStorage, ensureFile, hasFile,
        List.any_nil, Bool.false_eq_true, if_false, List.nil_append,
        List.filter_nil, List.map_nil, contentOf]
      split <;> rfl
  | append_singleton ws w ih =>
    have hW : writeAll (newStorage t0) (ws ++ [w])
        = doWrite (writeAll (newStorage t0) ws) w := by
      simp [writeAll, List.foldl_append]
    set st := writeAll (newStorage t0) ws with hst
    obtain ⟨ihF, ihD, ihN, ihC⟩ := ih
    have hHas : hasFile st.files (.jsonl (lastDayOf t0 ws)) = true := by
      rw [hasFile_iff, ihN]
      exact List.mem_map_of_mem _
        ((mem_firstDedup _ _).mpr (lastDayOf_mem t0 ws))
    have hdw := doWrite_eq st w (lastDayOf t0 ws) ihD ihF hHas
    rw [hW, hdw]
    refine ⟨by rw [lastDayOf_concat], by rw [lastDayOf_concat], ?_, ?_⟩
    · rw [namesOf_appendTo, namesOf_ensureFile, ihN, daysOf_concat,
        show dayOf t0 :: (daysOf ws ++ [dayOf w.1])
          = (dayOf t0 :: daysOf ws) ++ [dayOf w.1] from rfl,
        firstDedup_concat]
      by_cases hmem : dayOf w.1 ∈ dayOf t0 :: daysOf ws
      · have hh : hasFile st.files (.jsonl (dayOf w.1)) = true := by
          rw [hasFile_iff, ihN]
          exact List.mem_map_of_mem _ ((mem_firstDedup _ _).mpr hmem)
        rw [if_pos hmem, if_pos hh]
      · have hh : ¬hasFile st.files (.jsonl (dayOf w.1)) = true := by
          rw [hasFile_iff, ihN]
          intro hc
          simp only [List.mem_map, FName.jsonl.injEq] at hc
          obtain ⟨x, hx, hxe⟩ := hc
          exact hmem ((mem_firstDedup _ _).mp (hxe ▸ hx))
        rw [if_neg hmem, if_neg hh, List.map_append]
        rfl
    · intro d
      rw [contentOf_appendTo _ _ _ _ (hasFile_ensureFile _ _),
        List.filter_append, List.map_append]
      by_cases hdd : d = dayOf w.1
      · subst hdd
        rw [if_pos rfl, contentOf_ensureFile, ihC, List.filter_cons]
        simp
      · have hne : FName.jsonl d ≠ FName.jsonl (dayOf w.1) := by
          simpa using hdd
        rw [if_neg hne, contentOf_ensureFile, ihC, List.filter_cons]
        simp [Ne.symm hdd]

/-! ## Claim C3: range query -/

/-- C3: over a directory of segment files each containing only records of
its own day, `Query s e` returns exactly the parseable records with
`s ≤ timestamp ≤ e` drawn from the readable segment files (plain or
compressed) whose day overlaps the range — a multiset equality, stated as
a permutation with `segKept` — sorted ascending by timestamp; when nothing
matches the result is the empty (nil) slice and no error (`Query` has no
error return apart from the directory listing itself failing, which the
model does not produce).  Records that fail to parse and segment files
that fail to read never appear in `segKept`, so they are skipped without
failing the whole query. -/
theorem c3_query_range_exact (dir : List FileEnt) (s e : Int)
    (hinv : ∀ f ∈ dir, inDayB f = true) :
    (Query dir s e).toList.Perm (segKept dir s e) ∧
    List.Sorted tsLe (Query dir s e).toList ∧
    (segKept dir s e = [] → Query dir s e = none) := by
  have hsk := gatherSpec_eq_segKept dir s e hinv
  exact ⟨hsk ▸ query_perm_gatherSpec dir s e, query_sorted dir s e,
    fun h => query_eq_none_of_gatherSpec_nil dir s e (hsk.trans h)⟩

/-- Witness for the range-query theorem at a concrete directory. -/
theorem c3_query_range_exact_witness :
    (∀ f ∈ exDir, inDayB f = true) ∧
    ((Query exDir 0 (2 * nsPerDay)).toList.Perm
       (segKept exDir 0 (2 * nsPerDay)) ∧
     List.Sorted tsLe (Query exDir 0 (2 * nsPerDay)).toList ∧
     (segKept exDir 0 (2 * nsPerDay) = [] →
       Query exDir 0 (2 * nsPerDay) = none)) :=
  ⟨by decide, c3_query_range_exact exDir 0 (2 * nsPerDay) (by decide)⟩

/-! ## Claim C1: query-current round trip -/

/-- C1 names a code bug: the segment file is opened `O_WRONLY` (config.go
line 267) and `GetCurrent` scans that same handle, so the scan fails with
a read error and `GetCurrent` returns an error — never the written record.
This theorem evaluates the model right after a successful write: the
record is in the file and is the last parsed line (so the claimed scan
would recover it from a readable handle), yet `GetCurrent` errors. -/
theorem c1_get_current_errors_after_write :
    GetCurrent (doWrite (newStorage 0) (0, ⟨0, "p"⟩))
      = .error "read on write-only file descriptor" ∧
    (doWrite (newStorage 0) (0, ⟨0, "p"⟩)).currentFile
      = some ⟨0, .writeOnly⟩ ∧
    contentOf (doWrite (newStorage 0) (0, ⟨0, "p"⟩)).files (.jsonl 0)
      = [.good ⟨0, "p"⟩] ∧
    lastParsed (contentOf (doWrite (newStorage 0) (0, ⟨0, "p"⟩)).files
      (.jsonl 0)) = some ⟨0, "p"⟩ :=
  ⟨rfl, rfl, rfl, rfl⟩

/-! ## Claim C2: compress-to-temp then atomic rename -/

/-- C2 names a code bug: `compressFile` creates the destination directly
at the canonical compressed-segment name (no temporary path), its trace
contains no rename, and after a failed copy a truncated file remains at
the canonical name while the original is kept.  Evaluated on a one-file
directory for both a failing and a succeeding copy. -/
theorem c2_compress_writes_canonical_directly :
    (compressFile c2Dir 0 false).1
      = [⟨.jsonl 0, [.good ⟨0, "a"⟩], true⟩, ⟨.gz 0, [], false⟩] ∧
    (compressFile c2Dir 0 false).2 = [.createOp (.gz 0)] ∧
    (compressFile c2Dir 0 true).2
      = [.createOp (.gz 0), .removeOp (.jsonl 0)] ∧
    noRename (compressFile c2Dir 0 false).2 = true ∧
    noRename (compressFile c2Dir 0 true).2 = true := by
  decide

/-! ## Claim C5: one segment per day -/

/-- C5 (amended): after any successful write sequence, exactly one segment
is Open and its dayKey is the day of the last write (the construction day when
no write happened); the segment files present are exactly the first
occurrences of the construction day followed by the write days — so a
sequence spanning N distinct UTC days leaves N files when some write falls
on the construction day and N+1 files otherwise — and the file of each day
contains exactly the records written on that day, in order. -/
theorem c5_segments_per_day (t0 : Int) (ws : List (Int × Sample)) :
    (writeAll (newStorage t0) ws).currentFile
        = some ⟨lastDayOf t0 ws, .writeOnly⟩ ∧
    (writeAll (newStorage t0) ws).currentDay = some (lastDayOf t0 ws) ∧
    namesOf (writeAll (newStorage t0) ws).files
        = (firstDedup (dayOf t0 :: daysOf ws)).map FName.jsonl ∧
    (writeAll (newStorage t0) ws).files.length
        = (firstDedup (dayOf t0 :: daysOf ws)).length ∧
    ∀ d : Int, contentOf (writeAll (newStorage t0) ws).files (.jsonl d)
        = (ws.filter (fun w => dayOf w.1 = d)).map (fun w => Line.good w.2) := by
  obtain ⟨hF, hD, hN, hC⟩ := writeAll_spec t0 ws
  refine ⟨hF, hD, hN, ?_, hC⟩
  have := congrArg List.length hN
  simpa [namesOf] using this

/-- Counterexample to C5 as stated: storage constructed on day 0, a single
write on day 1 — one distinct write day, but two segment files exist (the
startup-day file plus the write-day file). -/
theorem c5_counterexample :
    (writeAll (newStorage 0) [(nsPerDay, ⟨nsPerDay, "x"⟩)]).files.length = 2 ∧
    (firstDedup (daysOf [(nsPerDay, (⟨nsPerDay, "x"⟩ : Sample))])).length
      = 1 := by
  decide

/-! ## Claim C6: durable synchronous write -/

/-- C6: on a well-formed storage state, a successful `Write` appends
exactly one serialized line to the file of the Open segment, touches no other
file, and its trace is exactly one write call followed by one flush call
(the flush is forced before success is returned); an injected write or
flush failure makes `Write` return an error, an injected open failure does
so whenever rotation actually has to open a file (and then no write call
is issued at all); and in every case the write and flush system calls are
issued at most once — never retried inside `Write`. -/
theorem c6_write_once_flush (st : Storage) (now : Int) (sample : Sample)
    (oOk wOk sOk : Bool) (hwf : storageWF st = true) :
    ((Write st now sample oOk wOk sOk).1 = .ok () →
        contentOf (Write st now sample oOk wOk sOk).2.1.files
            (.jsonl (dayOf now))
          = contentOf st.files (.jsonl (dayOf now)) ++ [.good sample] ∧
        (∀ n, n ≠ FName.jsonl (dayOf now) →
          contentOf (Write st now sample oOk wOk sOk).2.1.files n
            = contentOf st.files n) ∧
        (Write st now sample oOk wOk sOk).2.2 = [.writeCall, .syncCall]) ∧
    (wOk = false → ∃ m, (Write st now sample oOk wOk sOk).1 = .error m) ∧
    (sOk = false → ∃ m, (Write st now sample oOk wOk sOk).1 = .error m) ∧
    (oOk = false →
      ¬(st.currentDay = some (dayOf now) ∧ st.currentFile.isSome) →
        (Write st now sample oOk wOk sOk).1
            = .error "failed to open metrics file" ∧
        (Write st now sample oOk wOk sOk).2.2 = []) ∧
    (Write st now sample oOk wOk sOk).2.2.count .writeCall ≤ 1 ∧
    (Write st now sample oOk wOk sOk).2.2.count .syncCall ≤ 1 := by
  by_cases hrot : st.currentDay = some (dayOf now) ∧ st.currentFile.isSome
  · have hhas : hasFile st.files (.jsonl (dayOf now)) = true := by
      obtain ⟨hD, hS⟩ := hrot
      match hh : st.currentFile with
      | none => rw [hh] at hS; simp at hS
      | some h =>
        unfold storageWF at hwf
        rw [hh] at hwf
        simp only [Bool.and_eq_true, beq_iff_eq] at hwf
        have hday : h.day = dayOf now := by
          have h1 := hwf.1
          rw [hD] at h1
          exact (Option.some_injective _ h1).symm
        rw [← hday]
        exact hwf.2
    have hr : rotateIfNeeded st now oOk = .ok st := by
      unfold rotateIfNeeded
      rw [if_pos hrot]
    cases wOk with
    | false =>
      have hEv : Write st now sample oOk false sOk
          = (.error "failed to write sample", st, [.writeCall]) := by
        simp [Write, hr]
      rw [hEv]
      exact ⟨by simp, fun _ => ⟨_, rfl⟩, fun _ => ⟨_, rfl⟩,
        fun _ h2 => absurd hrot h2, by simp, by simp⟩
    | true =>
      cases sOk with
      | true =>
        have hEv : Write st now sample oOk true true
            = (.ok (), ⟨st.currentFile, st.currentDay,
                appendTo st.files (.jsonl (dayOf now)) (.good sample)⟩,
               [.writeCall, .syncCall]) := by
          simp [Write, hr]
        rw [hEv]
        refine ⟨fun _ => ⟨?_, ?_, rfl⟩, by simp, by simp,
          fun _ h2 => absurd hrot h2, by simp, by simp⟩
        · rw [contentOf_appendTo _ _ _ _ hhas, if_pos rfl]
        · intro n hn
          rw [contentOf_appendTo _ _ _ _ hhas, if_neg hn]
      | false =>
        have hEv : Write st now sample oOk true false
            = (.error "failed to sync", ⟨st.currentFile, st.currentDay,
                appendTo st.files (.jsonl (dayOf now)) (.good sample)⟩,
               [.writeCall, .syncCall]) := by
          simp [Write, hr]
        rw [hEv]
        exact ⟨by simp, by simp, fun _ => ⟨_, rfl⟩,
          fun _ h2 => absurd hrot h2, by simp, by simp⟩
  · cases oOk with
    | false =>
      have hr : rotateIfNeeded st now false
          = .error "failed to open metrics file" := by
        unfold rotateIfNeeded
        rw [if_neg hrot]
        rfl
      have hEv : Write st now sample false wOk sOk
          = (.error "failed to open metrics file", st, []) := by
        simp [Write, hr]
      rw [hEv]
      exact ⟨by simp, fun _ => ⟨_, rfl⟩, fun _ => ⟨_, rfl⟩,
        fun _ _ => ⟨rfl, rfl⟩, by simp, by simp⟩
    | true =>
      have hr : rotateIfNeeded st now true
          = .ok ⟨some ⟨dayOf now, .writeOnly⟩, some (dayOf now),
              ensureFile st.files (.jsonl (dayOf now))⟩ := by
        unfold rotateIfNeeded
        rw [if_neg hrot]
        rfl
      have hhas : hasFile (ensureFile st.files (.jsonl (dayOf now)))
          (.jsonl (dayOf now)) = true := hasFile_ensureFile _ _
      cases wOk with
      | false =>
        have hEv : Write st now sample true false sOk
            = (.error "failed to write sample",
               ⟨some ⟨dayOf now, .writeOnly⟩, some (dayOf now),
                 ensureFile st.files (.jsonl (dayOf now))⟩, [.writeCall]) := by
          simp [Write, hr]
        rw [hEv]
        exact ⟨by simp, fun _ => ⟨_, rfl⟩, fun _ => ⟨_, rfl⟩,
          fun h1 _ => by simp at h1, by simp, by simp⟩
      | true =>
        cases sOk with
        | true =>
          have hEv : Write st now sample true true true
              = (.ok (), ⟨some ⟨dayOf now, .writeOnly⟩, some (dayOf now),
                  appendTo (ensureFile st.files (.jsonl (dayOf now)))
                    (.jsonl (dayOf now)) (.good sample)⟩,
                 [.writeCall, .syncCall]) := by
            simp [Write, hr]
          rw [hEv]
          refine ⟨fun _ => ⟨?_, ?_, rfl⟩, by simp, by simp,
            fun h1 _ => by simp at h1, by simp, by simp⟩
          · rw [contentOf_appendTo _ _ _ _ hhas, if_pos rfl,
              contentOf_ensureFile]
          · intro n hn
            rw [contentOf_appendTo _ _ _ _ hhas, if_neg hn,
              contentOf_ensureFile]
        | false =>
          have hEv : Write st now sample true true false
              = (.error "failed to sync",
                 ⟨some ⟨dayOf now, .writeOnly⟩, some (dayOf now),
                  appendTo (ensureFile st.files (.jsonl (dayOf now)))
                    (.jsonl (dayOf now)) (.good sample)⟩,
                 [.writeCall, .syncCall]) := by
            simp [Write, hr]
          rw [hEv]
          exact ⟨by simp, by simp, fun _ => ⟨_, rfl⟩,
            fun h1 _ => by simp at h1, by simp, by simp⟩

/-- Witness for the durable-write theorem: a fully successful write at a
concrete state and instant. -/
theorem c6_write_once_flush_witness :
    storageWF (newStorage 0) = true ∧
    ((Write (newStorage 0) 5 ⟨5, "w"⟩ true true true).1 = .ok () →
        contentOf (Write (newStorage 0) 5 ⟨5, "w"⟩ true true true).2.1.files
            (.jsonl (dayOf 5))
          = contentOf (newStorage 0).files (.jsonl (dayOf 5))
              ++ [.good ⟨5, "w"⟩] ∧
        (∀ n, n ≠ FName.jsonl (dayOf 5) →
          contentOf (Write (newStorage 0) 5 ⟨5, "w"⟩ true true true).2.1.files n
            = contentOf (newStorage 0).files n) ∧
        (Write (newStorage 0) 5 ⟨5, "w"⟩ true true true).2.2
          = [.writeCall, .syncCall]) ∧
    (Write (newStorage 0) 5 ⟨5, "w"⟩ true true true).2.2.count .writeCall ≤ 1 :=
  ⟨by decide,
   (c6_write_once_flush (newStorage 0) 5 ⟨5, "w"⟩ true true true (by decide)).1,
   (c6_write_once_flush (newStorage 0) 5 ⟨5, "w"⟩ true true true (by decide)).2.2.2.2.1⟩

/-! ## Claim C7: retention sweep -/

/-- C7: the retention sweep with horizon `D` at instant `now` deletes
exactly the names of compressed segments (".jsonl.gz" with a parseable
date) whose day starts strictly before `now - D` days, and every directory
entry that is not a compressed segment — the Open segment and any Sealed
plain segment included — survives regardless of age. -/
theorem c7_retention_exact (dir : List FileEnt) (now D : Int) :
    (∀ n, n ∈ (cleanupOldFiles dir now D).2 ↔
        (n ∈ namesOf dir ∧
         ∃ d, n = FName.gz d ∧ d * nsPerDay < now - D * nsPerDay)) ∧
    (∀ f ∈ dir, (∀ d, f.name ≠ FName.gz d) →
        f ∈ (cleanupOldFiles dir now D).1) := by
  constructor
  · intro n
    simp only [cleanupOldFiles, List.mem_map, List.mem_filter, namesOf]
    constructor
    · rintro ⟨f, ⟨hf, hold⟩, rfl⟩
      refine ⟨⟨f, hf, rfl⟩, ?_⟩
      cases hn : f.name with
      | gz d =>
        rw [hn] at hold
        simp only [isOldGz, decide_eq_true_eq] at hold
        exact ⟨d, rfl, hold⟩
      | jsonl d => rw [hn] at hold; simp [isOldGz] at hold
      | other s => rw [hn] at hold; simp [isOldGz] at hold
    · rintro ⟨⟨f, hf, rfl⟩, d, hd, hold⟩
      exact ⟨f, ⟨hf, by rw [hd]; simpa [isOldGz] using hold⟩, rfl⟩
  · intro f hf hnotgz
    simp only [cleanupOldFiles, List.mem_filter]
    refine ⟨hf, ?_⟩
    cases hn : f.name with
    | gz d => exact absurd hn (hnotgz d)
    | jsonl d => simp [isOldGz, hn]
    | other s => simp [isOldGz, hn]

/-- Witness for the retention theorem on a concrete directory: the day-0
compressed segment is deleted at horizon 3 days from day 6, and a plain
segment of the same ancient day survives. -/
theorem c7_retention_exact_witness :
    (FName.gz 0 ∈ (cleanupOldFiles c7Dir (6 * nsPerDay) 3).2 ↔
        (FName.gz 0 ∈ namesOf c7Dir ∧
         ∃ d, FName.gz 0 = FName.gz d ∧
           d * nsPerDay < 6 * nsPerDay - 3 * nsPerDay)) ∧
    (⟨.jsonl 0, [], true⟩ : FileEnt) ∈
      (cleanupOldFiles c7Dir (6 * nsPerDay) 3).1 :=
  ⟨(c7_retention_exact c7Dir (6 * nsPerDay) 3).1 (FName.gz 0),
   (c7_retention_exact c7Dir (6 * nsPerDay) 3).2 ⟨.jsonl 0, [], true⟩
     (by decide) (fun d h => nomatch h)⟩

/-! ## Claim C8: protocol error replies -/

/-- C8: every received request line whose verb is unknown, whose required
arguments are missing (no subcommand, an unknown GET subcommand, or fewer
than two metrics range bounds), or whose timestamps do not parse, is
answered with exactly one line of the `writeError` form — a one-line JSON
object with an "error" key — after which the connection is closed. -/
theorem c8_bad_request_single_error_line (srv : SrvState) (line : String)
    (hbad : isBadRequest line = true) :
    ∃ m, handleConnection srv line = ([errLine m], true) := by
  suffices h : ∃ m, handleLine srv line = [errLine m] by
    obtain ⟨m, hm⟩ := h
    exact ⟨m, by unfold handleConnection; rw [hm]⟩
  cases hf : fields line with
  | nil => simp [isBadRequest, hf] at hbad
  | cons cmd rest =>
    by_cases hget : toUpperStr cmd = "GET"
    · cases rest with
      | nil =>
        exact ⟨"GET requires subcommand",
          by simp [handleLine, handleGet, hf, hget]⟩
      | cons sub rest2 =>
        by_cases hs : toLowerStr sub = "status"
        · simp [isBadRequest, hf, hget, hs] at hbad
        · by_cases hc : toLowerStr sub = "current"
          · simp [isBadRequest, hf, hget, hc] at hbad
          · by_cases hcfg : toLowerStr sub = "config"
            · simp [isBadRequest, hf, hget, hcfg] at hbad
            · by_cases hm : toLowerStr sub = "metrics"
              · cases rest2 with
                | nil =>
                  exact ⟨"GET metrics requires start and end time (ISO8601)",
                    by simp [handleLine, handleGet, handleGetMetrics, hf,
                      hget, hs, hc, hm]⟩
                | cons a rest3 =>
                  cases rest3 with
                  | nil =>
                    exact ⟨"GET metrics requires start and end time (ISO8601)",
                      by simp [handleLine, handleGet, handleGetMetrics, hf,
                        hget, hs, hc, hm]⟩
                  | cons b rest4 =>
                    have hbad2 : ((parseRFC3339 a).isNone
                        || (parseRFC3339 b).isNone) = true := by
                      simpa [isBadRequest, hf, hget, hs, hc, hcfg, hm]
                        using hbad
                    cases hpa : parseRFC3339 a with
                    | none =>
                      exact ⟨"invalid start time",
                        by simp [handleLine, handleGet, handleGetMetrics, hf,
                          hget, hs, hc, hm, hpa]⟩
                    | some sT =>
                      cases hpb : parseRFC3339 b with
                      | none =>
                        exact ⟨"invalid end time",
                          by simp [handleLine, handleGet, handleGetMetrics,
                            hf, hget, hs, hc, hm, hpa, hpb]⟩
                      | some eT => simp [hpa, hpb] at hbad2
              · exact ⟨"unknown GET subcommand: " ++ toLowerStr sub,
                  by simp [handleLine, handleGet, hf, hget, hs, hc, hcfg, hm]⟩
    · exact ⟨"unknown command: " ++ toUpperStr cmd,
        by simp [handleLine, hf, hget]⟩

/-- Witness for the protocol-error theorem: an unknown verb. -/
theorem c8_bad_request_single_error_line_witness :
    isBadRequest "PUT x" = true ∧
    ∃ m, handleConnection srv0 "PUT x" = ([errLine m], true) :=
  ⟨by decide, c8_bad_request_single_error_line srv0 "PUT x" (by decide)⟩

/-! ## Claim C9: empty range marshals to null -/

/-- C9: a GET METRICS request with two valid timestamps whose range
matches no stored record is answered with the single body line `null` —
the JSON encoding of the Go nil sample slice — which differs from the empty
JSON array and from an error line. -/
theorem c9_empty_range_marshals_null (srv : SrvState) (a b : String)
    (sT eT : Int) (rest : List String)
    (hpa : parseRFC3339 a = some sT) (hpb : parseRFC3339 b = some eT)
    (hnone : gatherSpec srv.store.files sT eT = []) :
    handleGetMetrics srv (a :: b :: rest) = ["null"]
      ∧ ("null" : String) ≠ "[]" := by
  have hq : Query srv.store.files sT eT = none :=
    query_eq_none_of_gatherSpec_nil _ _ _ hnone
  exact ⟨by simp [handleGetMetrics, hpa, hpb, hq, marshalSamples],
    by decide⟩

/-- Witness for the null-marshalling theorem: a concrete valid request
over a fresh storage holding no samples. -/
theorem c9_empty_range_marshals_null_witness :
    parseRFC3339 "2024-01-01T00:00:00Z" = some (19723 * nsPerDay) ∧
    parseRFC3339 "2024-01-02T00:00:00Z" = some (19724 * nsPerDay) ∧
    gatherSpec srv0.store.files (19723 * nsPerDay) (19724 * nsPerDay) = [] ∧
    (handleGetMetrics srv0
        ["2024-01-01T00:00:00Z", "2024-01-02T00:00:00Z"] = ["null"]
      ∧ ("null" : String) ≠ "[]") :=
  ⟨by decide, by decide, by decide,
   c9_empty_range_marshals_null srv0 "2024-01-01T00:00:00Z"
     "2024-01-02T00:00:00Z" (19723 * nsPerDay) (19724 * nsPerDay) []
     (by decide) (by decide) (by decide)⟩

/-! ## Claim C10: duplicated day is returned twice -/

/-- C10: when both the plain and the compressed segment file of one day
are present with the same logical content and the query range covers that
day, `Query` enumerates both files — the plain name sorting first — and
returns every in-range parseable record of that day twice, once from each
file. -/
theorem c10_duplicate_day_double_records (d : Int) (L : List Line)
    (s e : Int) (hs : s ≤ d * nsPerDay) (he : (d + 1) * nsPerDay ≤ e) :
    getFilesForTimeRange [⟨.jsonl d, L, true⟩, ⟨.gz d, L, true⟩] s e
      = [⟨.jsonl d, L, true⟩, ⟨.gz d, L, true⟩] ∧
    (Query [⟨.jsonl d, L, true⟩, ⟨.gz d, L, true⟩] s e).toList.Perm
      (inRangeRecords L s e ++ inRangeRecords L s e) := by
  have hk1 : keepTest (FName.jsonl d) s e = true := by
    simp only [keepTest, Bool.and_eq_true, Bool.not_eq_true',
      decide_eq_false_iff_not, not_lt]
    simp only [nsPerDay] at hs he ⊢
    omega
  have hk2 : keepTest (FName.gz d) s e = true := by
    simp only [keepTest, Bool.and_eq_true, Bool.not_eq_true',
      decide_eq_false_iff_not, not_lt]
    simp only [nsPerDay] at hs he ⊢
    omega
  have hgs : gatherSpec [⟨.jsonl d, L, true⟩, ⟨.gz d, L, true⟩] s e
      = inRangeRecords L s e ++ inRangeRecords L s e := by
    simp [gatherSpec, hk1, hk2]
  refine ⟨?_, hgs ▸ query_perm_gatherSpec _ s e⟩
  unfold getFilesForTimeRange
  simp [hk1, hk2, List.insertionSort, List.orderedInsert, nameLe, FName.key]

/-- Witness for the duplicated-day theorem at day 0 with a two-line
segment (one record, one malformed line). -/
theorem c10_duplicate_day_double_records_witness :
    ((0 : Int) ≤ 0 * nsPerDay ∧ (0 + 1) * nsPerDay ≤ nsPerDay) ∧
    (getFilesForTimeRange
        [⟨.jsonl 0, [.good ⟨5, "a"⟩, .bad "j"], true⟩,
         ⟨.gz 0, [.good ⟨5, "a"⟩, .bad "j"], true⟩] 0 nsPerDay
      = [⟨.jsonl 0, [.good ⟨5, "a"⟩, .bad "j"], true⟩,
         ⟨.gz 0, [.good ⟨5, "a"⟩, .bad "j"], true⟩] ∧
    (Query [⟨.jsonl 0, [.good ⟨5, "a"⟩, .bad "j"], true⟩,
            ⟨.gz 0, [.good ⟨5, "a"⟩, .bad "j"], true⟩] 0 nsPerDay).toList.Perm
      (inRangeRecords [.good ⟨5, "a"⟩, .bad "j"] 0 nsPerDay
        ++ inRangeRecords [.good ⟨5, "a"⟩, .bad "j"] 0 nsPerDay)) :=
  ⟨⟨by decide, by decide⟩,
   c10_duplicate_day_double_records 0 [.good ⟨5, "a"⟩, .bad "j"] 0 nsPerDay
     (by decide) (by decide)⟩

end BtcMon
